import Mathlib

/-!
# Haven Transfer Core — verification of the specification claims

This file gives a shallow embedding of the parts of the Haven repository that
the claims C1–C10 concern, and proves or refutes each claim against it.

Embedded components (translated from the Rust source, not from the spec):

* SHA-256 over byte lists, modelling the `sha2` crate as used by the code.
* `derive_chunk_nonce` (crates/haven-fast-transfer/src/sender.rs and
  haven_app/native/haven_file_client/src/crypto.rs) and `make_nonce`
  (client/src-tauri/src/commands/transfer.rs).
* `ChunkBitfield` (crates/haven-fast-transfer/src/bitfield.rs).
* The receiver Assembler and Writer loop bodies
  (crates/haven-fast-transfer/src/receiver.rs), as a step function over an
  explicit state; thread interleaving is modelled by an event list, and the
  possibility of a Rust panic by an `Option` result.
* The Blaster retransmit-cache insertion/eviction
  (crates/haven-fast-transfer/src/sender.rs).
* `UdpRelayState::handle_htp_packet` (crates/haven-gateway/src/udp_relay.rs).
* `CongestionController::update_rate`
  (haven_app/native/haven_transfer/src/congestion.rs); its `f64` arithmetic
  is modelled by exact rationals, and the update-interval clock check by an
  explicit `elapsed` flag.

Machine integers are `Nat` with explicit reduction `% 2^w` where the source
can overflow; byte strings are `List Nat` with every element `< 256`.
-/

namespace Haven

/-! ## Byte-level helpers -/

/-- Big-endian 8-byte encoding of a 64-bit value. -/
def be64 (n : ℕ) : List ℕ :=
  [n >>> 56 % 256, n >>> 48 % 256, n >>> 40 % 256, n >>> 32 % 256,
   n >>> 24 % 256, n >>> 16 % 256, n >>> 8 % 256, n % 256]

/-- Big-endian 4-byte encoding of a 32-bit value (`u32::to_be_bytes`). -/
def be32 (n : ℕ) : List ℕ := [n >>> 24 % 256, n >>> 16 % 256, n >>> 8 % 256, n % 256]

/-- Little-endian 8-byte encoding of a 64-bit value (`u64::to_le_bytes`). -/
def le64 (n : ℕ) : List ℕ :=
  [n % 256, n >>> 8 % 256, n >>> 16 % 256, n >>> 24 % 256,
   n >>> 32 % 256, n >>> 40 % 256, n >>> 48 % 256, n >>> 56 % 256]

/-- Overwrite `buf[off .. off + src.length]` with `src`
(the semantics of Rust `buf[off..off+n].copy_from_slice(&src[..n])`
when `off + n ≤ buf.len()`). -/
def writeBytes (buf : List ℕ) (off : ℕ) (src : List ℕ) : List ℕ :=
  buf.take off ++ src ++ buf.drop (off + src.length)

/-! ## SHA-256 (the `sha2` crate as used by the repository)

32-bit words are `Nat` reduced `% 2^32`; message and digest are byte lists. -/

/-- Rotate right within 32 bits. -/
def rotr (n x : ℕ) : ℕ := ((x >>> n) ||| (x <<< (32 - n))) % 2 ^ 32

/-- Bitwise NOT within 32 bits. -/
def not32 (x : ℕ) : ℕ := x ^^^ 0xFFFFFFFF

def bsig0 (x : ℕ) : ℕ := rotr 2 x ^^^ rotr 13 x ^^^ rotr 22 x

def bsig1 (x : ℕ) : ℕ := rotr 6 x ^^^ rotr 11 x ^^^ rotr 25 x

def ssig0 (x : ℕ) : ℕ := rotr 7 x ^^^ rotr 18 x ^^^ (x >>> 3)

def ssig1 (x : ℕ) : ℕ := rotr 17 x ^^^ rotr 19 x ^^^ (x >>> 10)

/-- SHA-256 round constants. -/
def shaK : List ℕ :=
  [1116352408, 1899447441, 3049323471, 3921009573, 961987163, 1508970993,
   2453635748, 2870763221, 3624381080, 310598401, 607225278, 1426881987,
   1925078388, 2162078206, 2614888103, 3248222580, 3835390401, 4022224774,
   264347078, 604807628, 770255983, 1249150122, 1555081692, 1996064986,
   2554220882, 2821834349, 2952996808, 3210313671, 3336571891, 3584528711,
   113926993, 338241895, 666307205, 773529912, 1294757372, 1396182291,
   1695183700, 1986661051, 2177026350, 2456956037, 2730485921, 2820302411,
   3259730800, 3345764771, 3516065817, 3600352804, 4094571909, 275423344,
   430227734, 506948616, 659060556, 883997877, 958139571, 1322822218,
   1537002063, 1747873779, 1955562222, 2024104815, 2227730452, 2361852424,
   2428436474, 2756734187, 3204031479, 3329325298]

/-- SHA-256 initial hash value. -/
def shaH0 : List ℕ :=
  [1779033703, 3144134277, 1013904242, 2773480762,
   1359893119, 2600822924, 528734635, 1541459225]

/-- Big-endian conversion of groups of 4 bytes into 32-bit words. -/
def bytesToWords : List ℕ → List ℕ
  | a :: b :: c :: d :: rest => (a * 2 ^ 24 + b * 2 ^ 16 + c * 2 ^ 8 + d) :: bytesToWords rest
  | _ => []

/-- SHA-256 padding: append 0x80, zeros to 56 mod 64, then the 64-bit bit length. -/
def shaPad (msg : List ℕ) : List ℕ :=
  let r := (msg.length + 1) % 64
  msg ++ [0x80] ++ List.replicate ((120 - r) % 64) 0 ++ be64 ((8 * msg.length) % 2 ^ 64)

/-- Extend 16 message words to the 64-word schedule. -/
def shaSchedule (w16 : List ℕ) : List ℕ :=
  (List.range 48).foldl
    (fun w _ =>
      let n := w.length
      w ++ [(ssig1 (w.getD (n - 2) 0) + w.getD (n - 7) 0 + ssig0 (w.getD (n - 15) 0) +
             w.getD (n - 16) 0) % 2 ^ 32])
    w16

/-- One compression round; the state is the list of eight working variables. -/
def shaRound (st : List ℕ) (kw : ℕ × ℕ) : List ℕ :=
  match st with
  | [a, b, c, d, e, f, g, h] =>
    let t1 := (h + bsig1 e + ((e &&& f) ^^^ (not32 e &&& g)) + kw.1 + kw.2) % 2 ^ 32
    let t2 := (bsig0 a + ((a &&& b) ^^^ (a &&& c) ^^^ (b &&& c))) % 2 ^ 32
    [(t1 + t2) % 2 ^ 32, a, b, c, (d + t1) % 2 ^ 32, e, f, g]
  | other => other

/-- Compress one 64-byte block into the running hash. -/
def shaCompress (hsh : List ℕ) (block : List ℕ) : List ℕ :=
  let w := shaSchedule (bytesToWords block)
  let fin := (shaK.zip w).foldl shaRound hsh
  (hsh.zip fin).map (fun p => (p.1 + p.2) % 2 ^ 32)

/-- Full SHA-256 digest of a byte list, as a list of 32 bytes. -/
def sha256 (msg : List ℕ) : List ℕ :=
  let padded := shaPad msg
  let final := (List.range (padded.length / 64)).foldl
    (fun hsh i => shaCompress hsh ((padded.drop (64 * i)).take 64)) shaH0
  final.foldr (fun w acc => be32 w ++ acc) []

/-! ## Chunk nonces (three derivation sites in the repository) -/

/-- Nonce derivation in crates/haven-fast-transfer/src/sender.rs (`derive_chunk_nonce`,
which hashes `key ‖ (chunk_index as u64).to_le_bytes()`) and in
haven_app/native/haven_file_client/src/crypto.rs (`derive_chunk_nonce`, identical bytes):
`SHA-256(key ‖ chunk_index_le)[..12]`. -/
def deriveChunkNonce (key : List ℕ) (chunkIndex : ℕ) : List ℕ :=
  (sha256 (key ++ le64 chunkIndex)).take 12

/-- Nonce construction in client/src-tauri/src/commands/transfer.rs (`make_nonce`):
a 12-byte zero array whose bytes 8..12 are overwritten with `chunk_index.to_be_bytes()`. -/
def makeNonce (chunkIndex : ℕ) : List ℕ :=
  writeBytes (List.replicate 12 0) 8 (be32 chunkIndex)

/-! ## Protocol constants (crates/haven-fast-transfer/src/protocol.rs) -/

/-- Maximum payload bytes per UDP frame. -/
def FRAME_PAYLOAD : ℕ := 1400

/-- Frame header size in bytes. -/
def FRAME_HEADER : ℕ := 24

/-- Chunk size: 4 MB plaintext. -/
def CHUNK_SIZE : ℕ := 4 * 1024 * 1024

/-- Encrypted chunk overhead: 12-byte nonce + 16-byte GCM tag. -/
def ENCRYPTION_OVERHEAD : ℕ := 28

/-- Maximum encrypted chunk size. -/
def ENCRYPTED_CHUNK_SIZE : ℕ := CHUNK_SIZE + ENCRYPTION_OVERHEAD

/-- Maximum frames per chunk (integer ceiling division, as in the source). -/
def MAX_FRAMES_PER_CHUNK : ℕ := (ENCRYPTED_CHUNK_SIZE + FRAME_PAYLOAD - 1) / FRAME_PAYLOAD

/-- Number of encrypted chunks the sender keeps for retransmit. -/
def SENDER_CACHE_SIZE : ℕ := 8

/-! ## ChunkBitfield (crates/haven-fast-transfer/src/bitfield.rs)

The `bits` field is the `[u64; BITFIELD_WORDS]` array as a list of words.
Words start at 0 and only ever receive single-bit ORs of `1 <<< b` with
`b < 64`, so every word stays `< 2^64` without an explicit reduction.
`received_count` is a `u16` in the source; it is bumped at most once per bit
of the 3008-bit array, so it never reaches the `u16` wrap point (see
`c2_received_bounded` inside the C2 theorem). -/

/-- Number of u64 words: `ceil(MAX_FRAMES_PER_CHUNK / 64)`. -/
def BITFIELD_WORDS : ℕ := (MAX_FRAMES_PER_CHUNK + 63) / 64

/-- Bit capacity of the array. -/
def BF_CAPACITY : ℕ := BITFIELD_WORDS * 64

structure ChunkBitfield where
  bits : List ℕ
  frameCount : ℕ
  receivedCount : ℕ
  deriving DecidableEq, Repr

/-- Model of `ChunkBitfield::new`. -/
def bfNew (frameCount : ℕ) : ChunkBitfield :=
  ⟨List.replicate BITFIELD_WORDS 0, frameCount, 0⟩

/-- Model of `ChunkBitfield::set`. Returns `(was_new, updated bitfield)`. -/
def bfSet (bf : ChunkBitfield) (frameIndex : ℕ) : Bool × ChunkBitfield :=
  let word := frameIndex / 64
  let bit := frameIndex % 64
  if BITFIELD_WORDS ≤ word then (false, bf)
  else
    let mask := 1 <<< bit
    if bf.bits.getD word 0 &&& mask ≠ 0 then (false, bf)
    else (true, { bf with bits := bf.bits.set word (bf.bits.getD word 0 ||| mask),
                          receivedCount := bf.receivedCount + 1 })

/-- Model of `ChunkBitfield::get`. -/
def bfGet (bf : ChunkBitfield) (frameIndex : ℕ) : Bool :=
  let word := frameIndex / 64
  let bit := frameIndex % 64
  if BITFIELD_WORDS ≤ word then false
  else decide (bf.bits.getD word 0 &&& (1 <<< bit) ≠ 0)

/-- Model of `ChunkBitfield::is_complete` (`received_count >= frame_count`). -/
def bfIsComplete (bf : ChunkBitfield) : Bool :=
  decide (bf.frameCount ≤ bf.receivedCount)

/-- Model of `ChunkBitfield::missing_frames`: collect the indices below `frame_count`
whose bit is clear, in iteration order. -/
def bfMissingFrames (bf : ChunkBitfield) : List ℕ :=
  (List.range bf.frameCount).foldl (fun acc i => if bfGet bf i then acc else acc ++ [i]) []

/-- Population count of the bit array: the number of set bit positions. -/
def bfPopcount (bf : ChunkBitfield) : ℕ :=
  ((Finset.range BF_CAPACITY).filter (fun k => bfGet bf k = true)).card

/-- Apply a sequence of `set` calls to a fresh bitfield. -/
def bfApplySets (frameCount : ℕ) (l : List ℕ) : ChunkBitfield :=
  l.foldl (fun b i => (bfSet b i).2) (bfNew frameCount)

/-! ## Receiver assembler and writer (crates/haven-fast-transfer/src/receiver.rs)

The Assembler loop body (lines 264–312) and the Writer loop body
(lines 374–444) are modelled as step functions on an explicit state.  A step
returning `none` models a Rust panic (in the Assembler, the
`copy_len = end - offset` usize subtraction underflows and the subsequent
slice indexing panics whenever `end < offset`).  The assembled-chunk channel
is the list `assembledOut` with the Writer consuming it from a cursor;
file, socket and log side effects are not modelled. -/

structure FastFrame where
  chunkIndex : ℕ
  frameIndex : ℕ
  frameCount : ℕ
  payload : List ℕ
  deriving DecidableEq, Repr

/-- The receiver configuration fields the assembler and writer read.
`chunkHashes` holds the declared per-chunk SHA-256 digests (the source keeps
them hex-encoded; hex encoding is injective, so comparing digests is
equivalent to comparing the hex strings). -/
structure RecvConfig where
  fileSize : ℕ
  chunkCount : ℕ
  chunkSize : ℕ
  chunkHashes : List (List ℕ)
  deriving DecidableEq, Repr

/-- Expected byte length of chunk `cidx`
(`file_size - cidx * chunk_size` for the last chunk, else `chunk_size`). -/
def thisChunkSize (cfg : RecvConfig) (cidx : ℕ) : ℕ :=
  if cidx = cfg.chunkCount - 1 then cfg.fileSize - cidx * cfg.chunkSize else cfg.chunkSize

structure AsmState where
  bitfields : List (Option ChunkBitfield)
  buffers : List (Option (List ℕ))
  completed : List Bool
  completedCount : ℕ
  assembledOut : List (ℕ × List ℕ)
  deriving DecidableEq, Repr

/-- Assembler state before the first frame. -/
def asmInit (cfg : RecvConfig) : AsmState :=
  ⟨List.replicate cfg.chunkCount none, List.replicate cfg.chunkCount none,
   List.replicate cfg.chunkCount false, 0, []⟩

/-- First-frame initialisation: allocate the bitfield (sized by the header
frame_count) and the zeroed chunk buffer when none exist yet
(receiver.rs lines 272–282). -/
def asmEnsureInit (cfg : RecvConfig) (s : AsmState) (f : FastFrame) : AsmState :=
  if (s.bitfields.getD f.chunkIndex none).isNone then
    { s with bitfields := s.bitfields.set f.chunkIndex (some (bfNew f.frameCount)),
             buffers := s.buffers.set f.chunkIndex
               (some (List.replicate (thisChunkSize cfg f.chunkIndex) 0)) }
  else s

/-- The payload copy performed when `set` reports a new frame (receiver.rs
lines 288–293).  `bf2` is the updated bitfield.  `none` models the panic of
`copy_len = end - offset` when `end < offset`. -/
def asmCopy (s1 : AsmState) (cidx fidx : ℕ) (payload : List ℕ) (bf2 : ChunkBitfield)
    (buf : List ℕ) : Option AsmState :=
  let off := fidx * FRAME_PAYLOAD
  let e := min (off + payload.length) buf.length
  if e < off then none
  else some { s1 with
    bitfields := s1.bitfields.set cidx (some bf2),
    buffers := s1.buffers.set cidx (some (writeBytes buf off (payload.take (e - off)))) }

/-- Chunk completion: mark completed, move the buffer onto the assembled
channel, drop the bitfield (receiver.rs lines 296–312). -/
def asmFinishChunk (cidx : ℕ) (s2 : AsmState) : Option AsmState :=
  match s2.buffers.getD cidx none with
  | some data => some { s2 with
      completed := s2.completed.set cidx true,
      completedCount := s2.completedCount + 1,
      buffers := s2.buffers.set cidx none,
      bitfields := s2.bitfields.set cidx none,
      assembledOut := s2.assembledOut ++ [(cidx, data)] }
  | none => none

/-- One Assembler iteration on a received frame (receiver.rs lines 264–312).
`none` models a panic. -/
def asmStep (cfg : RecvConfig) (s : AsmState) (f : FastFrame) : Option AsmState :=
  let cidx := f.chunkIndex
  if cfg.chunkCount ≤ cidx then some s
  else if s.completed.getD cidx false then some s
  else
    let s1 := asmEnsureInit cfg s f
    match s1.bitfields.getD cidx none, s1.buffers.getD cidx none with
    | some bf, some buf =>
      let r := bfSet bf f.frameIndex
      let afterCopy : Option AsmState :=
        if r.1 then asmCopy s1 cidx f.frameIndex f.payload r.2 buf
        else some s1
      afterCopy.bind (fun s2 =>
        if bfIsComplete r.2 then asmFinishChunk cidx s2 else some s2)
    | _, _ => none

/-- Hash check performed by the Writer on an assembled chunk
(`actual == chunk_hashes[cidx]` when `cidx` is in range, else false). -/
def hashOk (cfg : RecvConfig) (cidx : ℕ) (data : List ℕ) : Bool :=
  match cfg.chunkHashes.get? cidx with
  | some hsh => sha256 data == hsh
  | none => false

/-- Receiver shared-state words (receiver.rs lines 40–44). -/
def STATE_IDLE : ℕ := 0

def STATE_RECEIVING : ℕ := 2

def STATE_COMPLETE : ℕ := 3

def STATE_ERROR : ℕ := 4

def STATE_CANCELLED : ℕ := 5

/-- The receiver pipeline state visible across the Assembler and Writer
threads: the assembler state, the Writer cursor into the assembled channel,
its `chunks_written` counter, whether the Writer has terminated with an
error, and the shared `progress.state` word. -/
structure SysState where
  asm : AsmState
  consumed : ℕ
  chunksWritten : ℕ
  writerErr : Bool
  stateWord : ℕ
  deriving DecidableEq, Repr

/-- An interleaving event of the receiver pipeline: the Assembler handles one
frame, the Assembler observes that all chunks are assembled (loop head,
receiver.rs lines 257–261), or the Writer handles one assembled chunk. -/
inductive RecvEvent where
  | frame (f : FastFrame)
  | asmFinish
  | writeChunk
  deriving DecidableEq, Repr

/-- System state after `run_receiver` stores STATE_RECEIVING. -/
def sysInit (cfg : RecvConfig) : SysState :=
  ⟨asmInit cfg, 0, 0, false, STATE_RECEIVING⟩

/-- One interleaved step of the receiver pipeline.  `none` means the event is
not enabled (or a panic occurred inside the Assembler). -/
def sysStep (cfg : RecvConfig) (s : SysState) : RecvEvent → Option SysState
  | .frame f => (asmStep cfg s.asm f).map (fun a => { s with asm := a })
  | .asmFinish =>
      if cfg.chunkCount ≤ s.asm.completedCount then
        some { s with stateWord := STATE_COMPLETE }
      else none
  | .writeChunk =>
      if s.writerErr then none
      else
        match (s.asm.assembledOut.drop s.consumed).head? with
        | none => none
        | some (cidx, data) =>
          if hashOk cfg cidx data then
            some { s with consumed := s.consumed + 1,
                          chunksWritten := s.chunksWritten + 1,
                          stateWord := if cfg.chunkCount ≤ s.chunksWritten + 1 then STATE_COMPLETE
                                       else s.stateWord }
          else some { s with writerErr := true }

/-- Run the receiver pipeline model over a list of events. -/
def sysRun (cfg : RecvConfig) (evs : List RecvEvent) : Option SysState :=
  evs.foldlM (sysStep cfg) (sysInit cfg)

/-- Invariant carried through a sequence of `set` calls. -/
def BFInv (bf : ChunkBitfield) : Prop :=
  bf.bits.length = BITFIELD_WORDS ∧ bf.receivedCount = bfPopcount bf

/-- Per-chunk invariant maintained by the Assembler: the three vectors have
length chunk_count, and an incomplete chunk has a bitfield exactly when it
has a buffer, with that bitfield not yet complete and its word array of the
allocated size. -/
def AsmInv (cfg : RecvConfig) (s : AsmState) : Prop :=
  s.bitfields.length = cfg.chunkCount ∧ s.buffers.length = cfg.chunkCount ∧
  s.completed.length = cfg.chunkCount ∧
  ∀ c, c < cfg.chunkCount → s.completed.getD c false = false →
    ((s.bitfields.getD c none).isSome = (s.buffers.getD c none).isSome) ∧
    (∀ bf, s.bitfields.getD c none = some bf →
      bfIsComplete bf = false ∧ bf.bits.length = BITFIELD_WORDS)

/-- Frame `f` has been absorbed by the Assembler: its chunk is out of range,
already completed, or its bit is already set (or beyond capacity), so a
redelivery is dropped. -/
def Delivered (cfg : RecvConfig) (s : AsmState) (f : FastFrame) : Prop :=
  cfg.chunkCount ≤ f.chunkIndex ∨ s.completed.getD f.chunkIndex false = true ∨
  ∃ bf, s.bitfields.getD f.chunkIndex none = some bf ∧ (bfSet bf f.frameIndex).1 = false

/-! ## Blaster retransmit cache (crates/haven-fast-transfer/src/sender.rs, lines 281–295)

The cache is a map from chunk index to bytes plus the FIFO vector
`cache_order`; every chunk index is inserted exactly once, so `cache.len()`
equals `cache_order.len()` and the state is represented by the order vector
together with the observed ACK set. -/

structure SenderCache where
  cacheOrder : List ℕ
  acked : List ℕ
  deriving DecidableEq, Repr

/-- The eviction loop: while the cache holds more than `SENDER_CACHE_SIZE`
entries, evict the FIFO head if it has been ACKed, else stop. -/
def evictLoop (acked : List ℕ) : List ℕ → List ℕ
  | [] => []
  | h :: t =>
    if SENDER_CACHE_SIZE < (h :: t).length ∧ h ∈ acked then evictLoop acked t
    else h :: t

/-- Number of entries the eviction loop removes. -/
def evictedCount (acked : List ℕ) : List ℕ → ℕ
  | [] => 0
  | h :: t =>
    if SENDER_CACHE_SIZE < (h :: t).length ∧ h ∈ acked then evictedCount acked t + 1
    else 0

/-- Blaster handling of a freshly encrypted chunk: cache it, then run the
eviction loop. -/
def cacheInsert (st : SenderCache) (idx : ℕ) : SenderCache :=
  { st with cacheOrder := evictLoop st.acked (st.cacheOrder ++ [idx]) }

/-- Blaster handling of a chunk ACK (`acked.insert(ack.chunk_index)`). -/
def cacheAck (st : SenderCache) (idx : ℕ) : SenderCache :=
  { st with acked := st.acked ++ [idx] }

/-! ## UDP relay (crates/haven-gateway/src/udp_relay.rs, `handle_htp_packet`)

Addresses, user ids and session ids are abstracted to `Nat`.  The
`last_seen` / `last_activity` wall-clock timestamps are not modelled. -/

structure RelaySession where
  sideA : ℕ × ℕ
  sideB : Option (ℕ × ℕ)
  deriving DecidableEq, Repr

structure RelayState where
  clients : List (ℕ × ℕ)
  sessions : List (ℕ × RelaySession)
  deriving DecidableEq, Repr

/-- Association-list lookup (HashMap::get). -/
def alookup {α : Type} (l : List (ℕ × α)) (k : ℕ) : Option α :=
  (l.find? (fun p => p.1 == k)).map (·.2)

/-- Association-list update of an existing key. -/
def aset {α : Type} (l : List (ℕ × α)) (k : ℕ) (v : α) : List (ℕ × α) :=
  l.map (fun p => if p.1 == k then (k, v) else p)

/-- Model of `handle_htp_packet` (udp_relay.rs lines 235–306): look up the sender in
the authenticated-clients map, look up or create the session, and compute the
forwarding destination.  Returns the updated state and the destination
address, `none` meaning the packet is dropped. -/
def handleHtpPacket (st : RelayState) (src : ℕ) (sessionId : ℕ) : RelayState × Option ℕ :=
  match alookup st.clients src with
  | none => (st, none)
  | some senderId =>
    match alookup st.sessions sessionId with
    | none =>
        ({ st with sessions := st.sessions ++ [(sessionId, ⟨(senderId, src), none⟩)] }, none)
    | some sess =>
        if sess.sideA.1 = senderId then
          ({ st with sessions := aset st.sessions sessionId ⟨(senderId, src), sess.sideB⟩ },
           sess.sideB.map (·.2))
        else if sess.sideB.map (·.1) = some senderId then
          ({ st with sessions := aset st.sessions sessionId ⟨sess.sideA, some (senderId, src)⟩ },
           some sess.sideA.2)
        else if sess.sideB = none then
          ({ st with sessions := aset st.sessions sessionId ⟨sess.sideA, some (senderId, src)⟩ },
           some sess.sideA.2)
        else (st, none)

/-! ## Delay-based congestion controller (haven_app/native/haven_transfer/src/congestion.rs)

`f64` values are modelled as exact rationals; `Duration` values as
microsecond counts (`u128::as_micros` results).  Only the state read by
`update_rate` is modelled; the RTT history, timestamps and byte counters are
not.  The `now - last_update < update_interval` clock check is abstracted by
the `elapsed` argument. -/

structure CongestionController where
  currentRate : ℚ
  smoothedRtt : Option ℕ
  minRtt : Option ℕ
  gain : ℚ
  alpha : ℚ
  minRate : ℚ
  maxRate : ℚ
  deriving DecidableEq, Repr

/-- Model of `f64::clamp`. -/
def clampQ (x lo hi : ℚ) : ℚ := if x < lo then lo else if hi < x then hi else x

/-- Model of `CongestionController::update_rate` (congestion.rs lines 149–181). -/
def updateRate (cc : CongestionController) (elapsed : Bool) : CongestionController :=
  if !elapsed then cc
  else
    match cc.smoothedRtt, cc.minRtt with
    | some s, some m =>
      let qdUs : ℚ := ((s - m : ℕ) : ℚ)
      let qdSec := qdUs / 1000000
      let delta := cc.gain * (cc.alpha - cc.currentRate * qdSec)
      { cc with currentRate := clampQ (cc.currentRate + delta) cc.minRate cc.maxRate }
    | _, _ => cc

end Haven

set_option maxRecDepth 100000

namespace Haven

/-! ## Theorems -/

lemma makeNonce_eq (i : ℕ) : makeNonce i = [0, 0, 0, 0, 0, 0, 0, 0] ++ be32 i := by
  simp [makeNonce, writeBytes, be32, List.replicate, List.take, List.drop]

/-- Claim C1 (counterexample): in the fast-transfer sender (and the file
client), the nonce used for chunk 0 under the all-zero session key does not
have bytes 0..8 equal to 0 — `derive_chunk_nonce` is a SHA-256 prefix, not
the zero-padded big-endian counter the claim describes. -/
theorem c1_counterexample :
    (deriveChunkNonce (List.replicate 32 0) 0).take 8 ≠ List.replicate 8 0 := by decide

/-- Claim C1 (amended): only the Tauri client path (`make_nonce` in
commands/transfer.rs) builds the chunk nonce with bytes 0..8 = 0 and bytes
8..12 = chunk_index as big-endian u32; the fast-transfer sender and the file
client derive the nonce as SHA-256(key ‖ chunk_index_le)[..12] instead. -/
theorem c1_make_nonce_layout (i : ℕ) (_h : i < 2 ^ 32) :
    (makeNonce i).length = 12 ∧ (makeNonce i).take 8 = List.replicate 8 0 ∧
      (makeNonce i).drop 8 = be32 i := by
  refine ⟨?_, ?_, ?_⟩ <;> simp [makeNonce_eq, be32, List.replicate]

/-- Witness for `c1_make_nonce_layout` at chunk index 5. -/
theorem c1_make_nonce_layout_witness :
    5 < 2 ^ 32 ∧ ((makeNonce 5).length = 12 ∧ (makeNonce 5).take 8 = List.replicate 8 0 ∧
      (makeNonce 5).drop 8 = be32 5) :=
  ⟨by decide, c1_make_nonce_layout 5 (by decide)⟩

/-- Claim C9 (failing input): an accepted frame for the (single, short) chunk
0 with frame_index 1 makes the Assembler compute `end = min(1400 + 3, 100) =
100 < offset = 1400`, so `copy_len = end - offset` underflows and the copy
panics.  The step evaluates to `none`, the model of a panic. -/
theorem c9_panic_at_failing_input :
    asmStep ⟨100, 1, 4194332, []⟩ (asmInit ⟨100, 1, 4194332, []⟩) ⟨0, 1, 5, [1, 2, 3]⟩ = none := by
  decide

/-- Claim C10: a frame whose chunk index is out of range, or whose chunk is
already completed, leaves the Assembler state entirely unchanged. -/
theorem c10_discard_noop (cfg : RecvConfig) (s : AsmState) (f : FastFrame)
    (h : cfg.chunkCount ≤ f.chunkIndex ∨ s.completed.getD f.chunkIndex false = true) :
    asmStep cfg s f = some s := by
  rcases h with h | h
  · unfold asmStep
    rw [if_pos h]
  · unfold asmStep
    by_cases h2 : cfg.chunkCount ≤ f.chunkIndex
    · rw [if_pos h2]
    · rw [if_neg h2, if_pos h]

/-- Witness for `c10_discard_noop`: chunk index 7 in a single-chunk transfer. -/
theorem c10_discard_noop_witness :
    ((1 : ℕ) ≤ 7 ∨ (asmInit ⟨100, 1, 4194332, []⟩).completed.getD 7 false = true) ∧
      asmStep ⟨100, 1, 4194332, []⟩ (asmInit ⟨100, 1, 4194332, []⟩) ⟨7, 0, 1, [1]⟩ =
        some (asmInit ⟨100, 1, 4194332, []⟩) :=
  ⟨Or.inl (by decide), c10_discard_noop _ _ _ (Or.inl (by decide))⟩

/-- Claim C8 (counterexample): nine chunks cached before any ACK arrives —
exactly what the Blaster does on a nine-chunk file with a silent receiver —
leave nine entries in the retransmit cache, so its size is not bounded by
`SENDER_CACHE_SIZE = 8`. -/
theorem c8_counterexample :
    ((List.range 9).foldl cacheInsert ⟨[], []⟩).cacheOrder.length = 9 ∧
      SENDER_CACHE_SIZE < 9 := by decide

/-- Claim C8 (amended): eviction removes a prefix of the FIFO order, every
evicted index has been ACKed, eviction stalls whenever the FIFO head is not
ACKed, and the size is brought back to at most 8 only when the evicted heads
are all ACKed. -/
theorem c8_evict_spec (acked order : List ℕ) :
    evictLoop acked order = order.drop (evictedCount acked order) ∧
    (∀ x ∈ order.take (evictedCount acked order), x ∈ acked) ∧
    (∀ h t, order = h :: t → h ∉ acked → evictLoop acked order = order) ∧
    ((∀ x ∈ order, x ∈ acked) → (evictLoop acked order).length ≤ SENDER_CACHE_SIZE) := by
  induction order with
  | nil =>
    refine ⟨rfl, by simp [evictedCount], by simp, by simp [evictLoop, SENDER_CACHE_SIZE]⟩
  | cons h t ih =>
    by_cases hc : SENDER_CACHE_SIZE < (h :: t).length ∧ h ∈ acked
    · refine ⟨?_, ?_, ?_, ?_⟩
      · simp only [evictLoop, evictedCount, if_pos hc, List.drop_succ_cons]
        exact ih.1
      · simp only [evictedCount, if_pos hc, List.take_succ_cons]
        intro x hx
        rcases List.mem_cons.mp hx with rfl | hx
        · exact hc.2
        · exact ih.2.1 x hx
      · intro h2 t2 heq hnot
        cases heq
        exact absurd hc.2 hnot
      · intro hall
        simp only [evictLoop, if_pos hc]
        exact ih.2.2.2 (fun x hx => hall x (List.mem_cons_of_mem h hx))
    · refine ⟨?_, ?_, ?_, ?_⟩
      · simp only [evictLoop, evictedCount, if_neg hc, List.drop_zero]
      · simp only [evictedCount, if_neg hc, List.take_zero]
        intro x hx
        exact absurd hx (List.not_mem_nil x)
      · intro h2 t2 heq hnot
        simp only [evictLoop, if_neg hc]
      · intro hall
        have hm : h ∈ acked := hall h (List.mem_cons_self h t)
        have hlen : ¬ SENDER_CACHE_SIZE < (h :: t).length := fun hl => hc ⟨hl, hm⟩
        simp only [evictLoop, if_neg hc]
        omega

/-- Witness for `c8_evict_spec`: with index 0 ACKed, inserting a ninth chunk
evicts exactly the ACKed head. -/
theorem c8_evict_spec_witness :
    evictLoop [0] [0, 1, 2, 3, 4, 5, 6, 7, 8] = [1, 2, 3, 4, 5, 6, 7, 8] ∧ (0 : ℕ) ∈ [0] := by
  have h := (c8_evict_spec [0] [0, 1, 2, 3, 4, 5, 6, 7, 8]).1
  exact ⟨by rw [h]; decide, by decide⟩

end Haven

namespace Haven

/-! ### Bitfield lemmas -/

lemma getD_set_self {α : Type} (l : List α) (i : ℕ) (a d : α) (h : i < l.length) :
    (l.set i a).getD i d = a := by
  simp [List.getD, List.getElem?_set_self, h]

lemma getD_set_ne {α : Type} (l : List α) (i j : ℕ) (a d : α) (h : i ≠ j) :
    (l.set i a).getD j d = l.getD j d := by
  simp [List.getD, List.getElem?_set_ne h]

lemma getD_replicate_lt {α : Type} (n i : ℕ) (d a : α) (h : i < n) :
    (List.replicate n a).getD i d = a := by
  simp [List.getD, List.getElem?_replicate, h]

lemma and_pow_ne_zero (x n : ℕ) : (x &&& 2 ^ n ≠ 0) ↔ x.testBit n = true := by
  rw [Nat.and_two_pow]
  cases h : x.testBit n <;> simp [h, pow_eq_zero_iff]

/-- Unfolding of `bfGet`. -/
lemma bfGet_eq (bf : ChunkBitfield) (i : ℕ) :
    bfGet bf i = if BITFIELD_WORDS ≤ i / 64 then false
      else decide (bf.bits.getD (i / 64) 0 &&& (1 <<< (i % 64)) ≠ 0) := rfl

/-- The three branches of `bfSet`. -/
lemma bfSet_cases (bf : ChunkBitfield) (i : ℕ) :
    (BITFIELD_WORDS ≤ i / 64 ∧ bfSet bf i = (false, bf)) ∨
    (¬ BITFIELD_WORDS ≤ i / 64 ∧ bf.bits.getD (i / 64) 0 &&& (1 <<< (i % 64)) ≠ 0 ∧
      bfSet bf i = (false, bf)) ∨
    (¬ BITFIELD_WORDS ≤ i / 64 ∧ ¬ (bf.bits.getD (i / 64) 0 &&& (1 <<< (i % 64)) ≠ 0) ∧
      bfSet bf i = (true,
        { bf with bits := bf.bits.set (i / 64) (bf.bits.getD (i / 64) 0 ||| (1 <<< (i % 64))),
                  receivedCount := bf.receivedCount + 1 })) := by
  by_cases h1 : BITFIELD_WORDS ≤ i / 64
  · exact Or.inl ⟨h1, by simp only [bfSet]; rw [if_pos h1]⟩
  · by_cases h2 : bf.bits.getD (i / 64) 0 &&& (1 <<< (i % 64)) ≠ 0
    · exact Or.inr (Or.inl ⟨h1, h2, by simp only [bfSet]; rw [if_neg h1, if_pos h2]⟩)
    · exact Or.inr (Or.inr ⟨h1, h2, by simp only [bfSet]; rw [if_neg h1, if_neg h2]⟩)

lemma bfGet_new (fc k : ℕ) : bfGet (bfNew fc) k = false := by
  rw [bfGet_eq]
  by_cases h : BITFIELD_WORDS ≤ k / 64
  · rw [if_pos h]
  · rw [if_neg h]
    have hz : (List.replicate BITFIELD_WORDS (0 : ℕ)).getD (k / 64) 0 = 0 :=
      getD_replicate_lt _ _ _ _ (by omega)
    refine decide_eq_false ?_
    intro hc
    exact hc (by rw [bfNew, hz, Nat.zero_and])

lemma bfSet_of_fst_false (bf : ChunkBitfield) (i : ℕ) (h : (bfSet bf i).1 = false) :
    (bfSet bf i).2 = bf := by
  rcases bfSet_cases bf i with ⟨_, he⟩ | ⟨_, _, he⟩ | ⟨_, _, he⟩
  · rw [he]
  · rw [he]
  · rw [he] at h
    exact absurd h (by simp)

lemma bfSet_fst_true (bf : ChunkBitfield) (i : ℕ) (h : (bfSet bf i).1 = true) :
    i < BF_CAPACITY ∧ bfGet bf i = false := by
  rcases bfSet_cases bf i with ⟨_, he⟩ | ⟨_, _, he⟩ | ⟨h1, h2, _⟩
  · rw [he] at h
    exact absurd h (by simp)
  · rw [he] at h
    exact absurd h (by simp)
  · refine ⟨by unfold BF_CAPACITY; omega, ?_⟩
    rw [bfGet_eq, if_neg h1]
    simpa using h2

lemma bfSet_snd_true (bf : ChunkBitfield) (i : ℕ) (hlen : bf.bits.length = BITFIELD_WORDS)
    (h : (bfSet bf i).1 = true) :
    (bfSet bf i).2.receivedCount = bf.receivedCount + 1 ∧
    (bfSet bf i).2.frameCount = bf.frameCount ∧
    (bfSet bf i).2.bits.length = BITFIELD_WORDS ∧
    ∀ j, bfGet (bfSet bf i).2 j = (bfGet bf j || decide (j = i)) := by
  rcases bfSet_cases bf i with ⟨_, he⟩ | ⟨_, _, he⟩ | ⟨h1, h2, he⟩
  · rw [he] at h
    exact absurd h (by simp)
  · rw [he] at h
    exact absurd h (by simp)
  · rw [he]
    refine ⟨rfl, rfl, by simpa using hlen, ?_⟩
    intro j
    rw [bfGet_eq, bfGet_eq]
    by_cases hj : BITFIELD_WORDS ≤ j / 64
    · rw [if_pos hj, if_pos hj]
      have hne : ¬ j = i := by omega
      simp [hne]
    · rw [if_neg hj, if_neg hj]
      simp only
      by_cases hw : j / 64 = i / 64
      · rw [hw, getD_set_self _ _ _ _ (by omega)]
        simp only [Nat.shiftLeft_eq, one_mul]
        have hji : (j = i) ↔ (i % 64 = j % 64) := by omega
        by_cases hv : j = i
        · have heq : i % 64 = j % 64 := hji.mp hv
          rw [decide_eq_true hv, Bool.or_true]
          refine decide_eq_true ((and_pow_ne_zero _ _).mpr ?_)
          rw [Nat.testBit_or, Nat.testBit_two_pow]
          simp [heq]
        · have hne : ¬ i % 64 = j % 64 := fun hc => hv (hji.mpr hc)
          rw [decide_eq_false hv, Bool.or_false, decide_eq_decide]
          rw [and_pow_ne_zero, and_pow_ne_zero, Nat.testBit_or, Nat.testBit_two_pow]
          simp [hne]
      · rw [getD_set_ne _ _ _ _ _ (fun hc => hw hc.symm)]
        have hne : ¬ j = i := by omega
        simp [hne]

lemma bfGet_lt_of_true (bf : ChunkBitfield) (k : ℕ) (h : bfGet bf k = true) : k < BF_CAPACITY := by
  rw [bfGet_eq] at h
  by_cases h1 : BITFIELD_WORDS ≤ k / 64
  · rw [if_pos h1] at h
    exact absurd h (by simp)
  · unfold BF_CAPACITY
    omega

lemma bfPopcount_insert (bf bf2 : ChunkBitfield) (i : ℕ) (hi : i < BF_CAPACITY)
    (hnew : bfGet bf i = false)
    (hAll : ∀ j, bfGet bf2 j = (bfGet bf j || decide (j = i))) :
    bfPopcount bf2 = bfPopcount bf + 1 := by
  unfold bfPopcount
  have hins : (Finset.range BF_CAPACITY).filter (fun k => bfGet bf2 k = true) =
      insert i ((Finset.range BF_CAPACITY).filter (fun k => bfGet bf k = true)) := by
    ext k
    by_cases hk : k = i
    · subst hk
      simp [Finset.mem_filter, Finset.mem_range, hAll k, hi]
    · simp [Finset.mem_filter, Finset.mem_range, hAll k, hk]
  rw [hins, Finset.card_insert_of_not_mem]
  simp [Finset.mem_filter, hnew]

lemma bfNew_popcount (fc : ℕ) : bfPopcount (bfNew fc) = 0 := by
  unfold bfPopcount
  rw [Finset.card_eq_zero]
  ext k
  simp [Finset.mem_filter, bfGet_new]

lemma bfNew_inv (fc : ℕ) : BFInv (bfNew fc) := by
  refine ⟨by simp [bfNew], ?_⟩
  rw [bfNew_popcount]
  rfl

lemma bfSet_inv (bf : ChunkBitfield) (i : ℕ) (h : BFInv bf) : BFInv (bfSet bf i).2 := by
  cases hf : (bfSet bf i).1
  · rw [bfSet_of_fst_false bf i hf]
    exact h
  · obtain ⟨hcap, hnew⟩ := bfSet_fst_true bf i hf
    obtain ⟨hrc, _, hlen2, hAll⟩ := bfSet_snd_true bf i h.1 hf
    exact ⟨hlen2, by rw [hrc, bfPopcount_insert bf _ i hcap hnew hAll, h.2]⟩

lemma bfSet_frameCount (bf : ChunkBitfield) (i : ℕ) :
    (bfSet bf i).2.frameCount = bf.frameCount := by
  rcases bfSet_cases bf i with ⟨_, he⟩ | ⟨_, _, he⟩ | ⟨_, _, he⟩ <;> rw [he]

lemma bfSet_get_true (bf : ChunkBitfield) (i k : ℕ) (hlen : bf.bits.length = BITFIELD_WORDS)
    (h : bfGet (bfSet bf i).2 k = true) : bfGet bf k = true ∨ k = i := by
  cases hf : (bfSet bf i).1
  · rw [bfSet_of_fst_false bf i hf] at h
    exact Or.inl h
  · obtain ⟨_, _, _, hAll⟩ := bfSet_snd_true bf i hlen hf
    rw [hAll k] at h
    rcases Bool.or_eq_true_iff.mp h with h2 | h2
    · exact Or.inl h2
    · exact Or.inr (of_decide_eq_true h2)

lemma bfPopcount_le (bf : ChunkBitfield) : bfPopcount bf ≤ BF_CAPACITY := by
  calc bfPopcount bf ≤ (Finset.range BF_CAPACITY).card := Finset.card_filter_le _ _
  _ = BF_CAPACITY := Finset.card_range _

lemma bfApplySets_inv (fc : ℕ) (l : List ℕ) :
    BFInv (bfApplySets fc l) ∧ (bfApplySets fc l).frameCount = fc ∧
      ((∀ i ∈ l, i < fc) → ∀ k, bfGet (bfApplySets fc l) k = true → k < fc) := by
  unfold bfApplySets
  suffices h : ∀ bf, BFInv bf →
      BFInv (l.foldl (fun b i => (bfSet b i).2) bf) ∧
      (l.foldl (fun b i => (bfSet b i).2) bf).frameCount = bf.frameCount ∧
      ((∀ i ∈ l, i < fc) → (∀ k, bfGet bf k = true → k < fc) →
        ∀ k, bfGet (l.foldl (fun b i => (bfSet b i).2) bf) k = true → k < fc) by
    obtain ⟨h1, h2, h3⟩ := h (bfNew fc) (bfNew_inv fc)
    refine ⟨h1, h2, fun hl => h3 hl ?_⟩
    intro k hk
    rw [bfGet_new] at hk
    exact absurd hk (by simp)
  induction l with
  | nil => exact fun bf hbf => ⟨hbf, rfl, fun _ h0 => h0⟩
  | cons a t ih =>
    intro bf hbf
    simp only [List.foldl_cons]
    obtain ⟨ih1, ih2, ih3⟩ := ih (bfSet bf a).2 (bfSet_inv bf a hbf)
    refine ⟨ih1, by rw [ih2, bfSet_frameCount], ?_⟩
    intro hl h0
    refine ih3 (fun i hi => hl i (List.mem_cons_of_mem a hi)) ?_
    intro k hk
    rcases bfSet_get_true bf a k hbf.1 hk with hk2 | hk2
    · exact h0 k hk2
    · rw [hk2]
      exact hl a (List.mem_cons_self a t)

/-- Claim C2 (counterexample): starting from `ChunkBitfield::new(1)`, the
call sequence `set 0; set 1` (the second index is below the 3008-bit
capacity, so it is not ignored) drives `received_count` to 2, exceeding
`frame_count = 1`, and `is_complete()` holds although
`received_count ≠ frame_count`. -/
theorem c2_counterexample :
    (bfApplySets 1 [0, 1]).receivedCount = 2 ∧ (bfApplySets 1 [0, 1]).frameCount = 1 ∧
      ¬ ((bfApplySets 1 [0, 1]).receivedCount ≤ (bfApplySets 1 [0, 1]).frameCount) ∧
      bfIsComplete (bfApplySets 1 [0, 1]) = true ∧
      (bfApplySets 1 [0, 1]).receivedCount ≠ (bfApplySets 1 [0, 1]).frameCount := by
  decide

/-- Claim C2 (amended): after any sequence of `set` calls, `received_count`
equals the population count of set bits and never exceeds the 3008-bit
capacity (in particular the u16 counter cannot wrap), and `is_complete` is
`received_count ≥ frame_count`.  When every `set` argument is below
`frame_count` — the protocol-respecting case — `received_count` never
exceeds `frame_count` and `is_complete` holds iff
`received_count = frame_count`. -/
theorem c2_received_bounded (fc : ℕ) (l : List ℕ) :
    (bfApplySets fc l).receivedCount = bfPopcount (bfApplySets fc l) ∧
    (bfApplySets fc l).receivedCount ≤ BF_CAPACITY ∧
    (bfIsComplete (bfApplySets fc l) = true ↔ fc ≤ (bfApplySets fc l).receivedCount) ∧
    ((∀ i ∈ l, i < fc) →
      (bfApplySets fc l).receivedCount ≤ fc ∧
      (bfIsComplete (bfApplySets fc l) = true ↔ (bfApplySets fc l).receivedCount = fc)) := by
  obtain ⟨⟨hlen, hpc⟩, hfc, hpos⟩ := bfApplySets_inv fc l
  have hcomp : bfIsComplete (bfApplySets fc l) = true ↔ fc ≤ (bfApplySets fc l).receivedCount := by
    unfold bfIsComplete
    rw [hfc, decide_eq_true_iff]
  refine ⟨hpc, by rw [hpc]; exact bfPopcount_le _, hcomp, ?_⟩
  intro hl
  have hsub : (Finset.range BF_CAPACITY).filter (fun k => bfGet (bfApplySets fc l) k = true) ⊆
      Finset.range fc := by
    intro k hk
    rw [Finset.mem_filter] at hk
    exact Finset.mem_range.mpr (hpos hl k hk.2)
  have hle : (bfApplySets fc l).receivedCount ≤ fc := by
    rw [hpc]
    unfold bfPopcount
    calc _ ≤ (Finset.range fc).card := Finset.card_le_card hsub
    _ = fc := Finset.card_range fc
  exact ⟨hle, by rw [hcomp]; omega⟩

/-- Witness for `c2_received_bounded` with frame_count 2 and calls set 0, set 1. -/
theorem c2_received_bounded_witness :
    ((bfApplySets 2 [0, 1]).receivedCount = bfPopcount (bfApplySets 2 [0, 1]) ∧
     (bfApplySets 2 [0, 1]).receivedCount ≤ BF_CAPACITY ∧
     (bfIsComplete (bfApplySets 2 [0, 1]) = true ↔ 2 ≤ (bfApplySets 2 [0, 1]).receivedCount)) ∧
    ((bfApplySets 2 [0, 1]).receivedCount ≤ 2 ∧
     (bfIsComplete (bfApplySets 2 [0, 1]) = true ↔ (bfApplySets 2 [0, 1]).receivedCount = 2)) := by
  have h := c2_received_bounded 2 [0, 1]
  exact ⟨⟨h.1, h.2.1, h.2.2.1⟩, h.2.2.2 (by decide)⟩

/-! ### C7: missing frames -/

lemma foldl_push_filter (p : ℕ → Bool) :
    ∀ (l acc : List ℕ), l.foldl (fun acc i => if p i then acc else acc ++ [i]) acc =
      acc ++ l.filter (fun i => !p i) := by
  intro l
  induction l with
  | nil => intro acc; simp
  | cons a t ih =>
    intro acc
    cases h : p a
    · simp only [List.foldl_cons, h, if_false, List.filter_cons, h, Bool.not_false, if_true, ih]
      simp
    · simp only [List.foldl_cons, h, if_true, List.filter_cons, h, Bool.not_true, if_false, ih]
      simp

lemma bfMissingFrames_eq_filter (bf : ChunkBitfield) :
    bfMissingFrames bf = (List.range bf.frameCount).filter (fun i => !bfGet bf i) := by
  unfold bfMissingFrames
  rw [foldl_push_filter]
  simp

/-- Claim C7: `missing_frames()` returns exactly the indices below
`frame_count` whose bit is clear, in strictly ascending order. -/
theorem c7_missing_frames_spec (bf : ChunkBitfield) :
    (∀ k, k ∈ bfMissingFrames bf ↔ k < bf.frameCount ∧ bfGet bf k = false) ∧
      List.Sorted (· < ·) (bfMissingFrames bf) := by
  rw [bfMissingFrames_eq_filter]
  constructor
  · intro k
    rw [List.mem_filter, List.mem_range]
    simp
  · exact (List.sorted_lt_range bf.frameCount).filter _

end Haven

namespace Haven

/-! ### C4: relay isolation -/

lemma alookup_aset_self {α : Type} (l : List (ℕ × α)) (k : ℕ) (v w : α)
    (h : alookup l k = some w) : alookup (aset l k v) k = some v := by
  induction l with
  | nil => simp [alookup] at h
  | cons p t ih =>
    cases hp : p.1 == k
    · have h2 : alookup t k = some w := by
        simpa [alookup, List.find?, hp] using h
      simpa [alookup, aset, List.find?, hp] using ih h2
    · simp [alookup, aset, List.find?, hp]

lemma alookup_append_single {α : Type} (l : List (ℕ × α)) (k : ℕ) (v : α)
    (h : alookup l k = none) : alookup (l ++ [(k, v)]) k = some v := by
  induction l with
  | nil => simp [alookup, List.find?]
  | cons p t ih =>
    cases hp : p.1 == k
    · have h2 : alookup t k = none := by
        simpa [alookup, List.find?, hp] using h
      simpa [alookup, List.find?, hp] using ih h2
    · simp [alookup, List.find?, hp] at h

/-- Claim C4: an HTP data packet from an authenticated sender is forwarded
only to the address registered as the other side of its session; the first
sender of a session id registers as side_a (nothing is forwarded yet); a
second, different subject joins as side_b and the packet goes to side_a;
a third subject gets nothing forwarded and leaves the state unchanged. -/
theorem c4_relay_isolation (st : RelayState) (src sid senderId : ℕ)
    (hauth : alookup st.clients src = some senderId) :
    (∀ d, (handleHtpPacket st src sid).2 = some d →
      ∃ sess, alookup (handleHtpPacket st src sid).1.sessions sid = some sess ∧
        ((sess.sideA = (senderId, src) ∧ ∃ b, sess.sideB = some b ∧ d = b.2) ∨
         (sess.sideB = some (senderId, src) ∧ d = sess.sideA.2))) ∧
    (alookup st.sessions sid = none →
      alookup (handleHtpPacket st src sid).1.sessions sid = some ⟨(senderId, src), none⟩ ∧
        (handleHtpPacket st src sid).2 = none) ∧
    (∀ sess, alookup st.sessions sid = some sess → sess.sideA.1 ≠ senderId → sess.sideB = none →
      alookup (handleHtpPacket st src sid).1.sessions sid =
          some ⟨sess.sideA, some (senderId, src)⟩ ∧
        (handleHtpPacket st src sid).2 = some sess.sideA.2) ∧
    (∀ sess b, alookup st.sessions sid = some sess → sess.sideA.1 ≠ senderId →
      sess.sideB = some b → b.1 ≠ senderId →
      (handleHtpPacket st src sid).2 = none ∧ (handleHtpPacket st src sid).1 = st) := by
  cases hsess : alookup st.sessions sid with
  | none =>
    have hst : handleHtpPacket st src sid =
        ({ st with sessions := st.sessions ++ [(sid, ⟨(senderId, src), none⟩)] }, none) := by
      simp only [handleHtpPacket, hauth, hsess]
    refine ⟨?_, ?_, ?_, ?_⟩
    · intro d hd
      rw [hst] at hd
      exact absurd hd (by simp)
    · intro _
      rw [hst]
      exact ⟨alookup_append_single st.sessions sid _ hsess, rfl⟩
    · intro sess hs2
      exact absurd hs2 (by simp)
    · intro sess b hs2
      exact absurd hs2 (by simp)
  | some sess =>
    by_cases hA : sess.sideA.1 = senderId
    · have hst : handleHtpPacket st src sid =
          ({ st with sessions := aset st.sessions sid ⟨(senderId, src), sess.sideB⟩ },
           sess.sideB.map (·.2)) := by
        simp only [handleHtpPacket, hauth, hsess]
        rw [if_pos hA]
      refine ⟨?_, ?_, ?_, ?_⟩
      · intro d hd
        rw [hst] at hd
        simp only at hd
        obtain ⟨b, hb, hb2⟩ := Option.map_eq_some'.mp hd
        refine ⟨⟨(senderId, src), sess.sideB⟩, ?_, Or.inl ⟨rfl, b, hb, hb2.symm⟩⟩
        rw [hst]
        exact alookup_aset_self st.sessions sid _ _ hsess
      · intro hn
        exact absurd hn (by simp)
      · intro sess2 hs2 hA2 _
        cases Option.some_inj.mp hs2
        exact absurd hA hA2
      · intro sess2 b hs2 hA2 _ _
        cases Option.some_inj.mp hs2
        exact absurd hA hA2
    · cases hB : sess.sideB with
      | some b =>
        by_cases hBu : b.1 = senderId
        · have hmap : sess.sideB.map (·.1) = some senderId := by
            rw [hB]
            show some b.1 = some senderId
            rw [hBu]
          have hst : handleHtpPacket st src sid =
              ({ st with sessions := aset st.sessions sid ⟨sess.sideA, some (senderId, src)⟩ },
               some sess.sideA.2) := by
            simp only [handleHtpPacket, hauth, hsess]
            rw [if_neg hA, if_pos hmap]
          refine ⟨?_, ?_, ?_, ?_⟩
          · intro d hd
            rw [hst] at hd
            simp only [Option.some_inj] at hd
            refine ⟨⟨sess.sideA, some (senderId, src)⟩, ?_, Or.inr ⟨rfl, hd.symm⟩⟩
            rw [hst]
            exact alookup_aset_self st.sessions sid _ _ hsess
          · intro hn
            exact absurd hn (by simp)
          · intro sess2 hs2 hA2 hB2
            cases Option.some_inj.mp hs2
            rw [hB] at hB2
            exact absurd hB2 (by simp)
          · intro sess2 b2 hs2 hA2 hB2 hBu2
            cases Option.some_inj.mp hs2
            rw [hB] at hB2
            cases Option.some_inj.mp hB2
            exact absurd hBu hBu2
        · have hmap : ¬ sess.sideB.map (·.1) = some senderId := by
            rw [hB]
            simpa using hBu
          have hBn : ¬ sess.sideB = none := by rw [hB]; simp
          have hst : handleHtpPacket st src sid = (st, none) := by
            simp only [handleHtpPacket, hauth, hsess]
            rw [if_neg hA, if_neg hmap, if_neg hBn]
          refine ⟨?_, ?_, ?_, ?_⟩
          · intro d hd
            rw [hst] at hd
            exact absurd hd (by simp)
          · intro hn
            exact absurd hn (by simp)
          · intro sess2 hs2 hA2 hB2
            cases Option.some_inj.mp hs2
            rw [hB] at hB2
            exact absurd hB2 (by simp)
          · intro sess2 b2 hs2 hA2 hB2 hBu2
            rw [hst]
            exact ⟨rfl, rfl⟩
      | none =>
        have hmap : ¬ sess.sideB.map (·.1) = some senderId := by rw [hB]; simp
        have hst : handleHtpPacket st src sid =
            ({ st with sessions := aset st.sessions sid ⟨sess.sideA, some (senderId, src)⟩ },
             some sess.sideA.2) := by
          simp only [handleHtpPacket, hauth, hsess]
          rw [if_neg hA, if_neg hmap, if_pos hB]
        refine ⟨?_, ?_, ?_, ?_⟩
        · intro d hd
          rw [hst] at hd
          simp only [Option.some_inj] at hd
          refine ⟨⟨sess.sideA, some (senderId, src)⟩, ?_, Or.inr ⟨rfl, hd.symm⟩⟩
          rw [hst]
          exact alookup_aset_self st.sessions sid _ _ hsess
        · intro hn
          exact absurd hn (by simp)
        · intro sess2 hs2 hA2 hB2
          cases Option.some_inj.mp hs2
          rw [hst]
          exact ⟨alookup_aset_self st.sessions sid _ _ hsess, rfl⟩
        · intro sess2 b2 hs2 hA2 hB2 hBu2
          cases Option.some_inj.mp hs2
          rw [hB] at hB2
          exact absurd hB2 (by simp)

/-- Witness for `c4_relay_isolation`: user 100 (addr 10) joins session 42
whose side_a is user 200 at addr 20; the packet is forwarded to addr 20. -/
theorem c4_relay_isolation_witness :
    alookup (handleHtpPacket ⟨[(10, 100)], [(42, ⟨(200, 20), none⟩)]⟩ 10 42).1.sessions 42 =
        some ⟨(200, 20), some (100, 10)⟩ ∧
      (handleHtpPacket ⟨[(10, 100)], [(42, ⟨(200, 20), none⟩)]⟩ 10 42).2 = some 20 :=
  (c4_relay_isolation ⟨[(10, 100)], [(42, ⟨(200, 20), none⟩)]⟩ 10 42 100 (by decide)).2.2.1
    ⟨(200, 20), none⟩ (by decide) (by decide) rfl

/-! ### C5: congestion-rate monotonicity -/

/-- Claim C5: once both a smoothed RTT and a min RTT exist, a rate update
with the update interval elapsed strictly increases the rate while it is
below max_rate whenever the queuing delay is zero, and strictly decreases it
while it is above min_rate whenever the queuing delay exceeds alpha / rate;
the result stays inside [min_rate, max_rate]. -/
theorem c5_rate_monotone (cc : CongestionController) (s m : ℕ)
    (hs : cc.smoothedRtt = some s) (hm : cc.minRtt = some m)
    (hg : 0 < cc.gain) (ha : 0 < cc.alpha) (hbounds : cc.minRate ≤ cc.maxRate) :
    ((s - m = 0) → cc.minRate ≤ cc.currentRate → cc.currentRate < cc.maxRate →
      cc.currentRate < (updateRate cc true).currentRate ∧
        (updateRate cc true).currentRate ≤ cc.maxRate) ∧
    ((cc.alpha / cc.currentRate < ((s - m : ℕ) : ℚ) / 1000000) → 0 < cc.currentRate →
      cc.minRate < cc.currentRate →
      (updateRate cc true).currentRate < cc.currentRate ∧
        cc.minRate ≤ (updateRate cc true).currentRate) := by
  have hupd : (updateRate cc true).currentRate =
      clampQ (cc.currentRate +
          cc.gain * (cc.alpha - cc.currentRate * (((s - m : ℕ) : ℚ) / 1000000)))
        cc.minRate cc.maxRate := by
    simp [updateRate, hs, hm]
  constructor
  · intro hq hlo hhi
    rw [hupd, hq]
    have hz : ((0 : ℕ) : ℚ) / 1000000 = 0 := by norm_num
    rw [hz]
    have hpos : 0 < cc.gain * cc.alpha := mul_pos hg ha
    have hx : cc.currentRate < cc.currentRate + cc.gain * (cc.alpha - cc.currentRate * 0) := by
      nlinarith
    unfold clampQ
    split_ifs with h1 h2
    · constructor <;> linarith
    · constructor <;> linarith
    · constructor <;> linarith
  · intro hq hr hmin
    rw [hupd]
    have hlt : cc.alpha < (((s - m : ℕ) : ℚ) / 1000000) * cc.currentRate :=
      (div_lt_iff₀ hr).mp hq
    have hneg : cc.gain * (cc.alpha - cc.currentRate * (((s - m : ℕ) : ℚ) / 1000000)) < 0 := by
      apply mul_neg_of_pos_of_neg hg
      nlinarith
    have hx : cc.currentRate +
        cc.gain * (cc.alpha - cc.currentRate * (((s - m : ℕ) : ℚ) / 1000000)) < cc.currentRate := by
      linarith
    unfold clampQ
    split_ifs with h1 h2
    · constructor <;> linarith
    · constructor <;> linarith
    · constructor <;> linarith

/-- Witness for `c5_rate_monotone`: one controller with zero queuing delay
(rate rises from 1 MB/s), one with 50 ms of queuing delay at 1 MB/s
(rate falls), both with the default gain, alpha and rate bounds. -/
theorem c5_rate_monotone_witness :
    ((1000000 : ℚ) <
        (updateRate ⟨1000000, some 10000, some 10000, 1/2, 10000, 100000, 1000000000⟩
          true).currentRate ∧
      (updateRate ⟨1000000, some 10000, some 10000, 1/2, 10000, 100000, 1000000000⟩
          true).currentRate ≤ (1000000000 : ℚ)) ∧
    ((updateRate ⟨1000000, some 60000, some 10000, 1/2, 10000, 100000, 1000000000⟩
          true).currentRate < (1000000 : ℚ) ∧
      (100000 : ℚ) ≤
        (updateRate ⟨1000000, some 60000, some 10000, 1/2, 10000, 100000, 1000000000⟩
          true).currentRate) :=
  ⟨(c5_rate_monotone ⟨1000000, some 10000, some 10000, 1/2, 10000, 100000, 1000000000⟩
      10000 10000 rfl rfl (by norm_num) (by norm_num) (by norm_num)).1
        (by norm_num) (by norm_num) (by norm_num),
   (c5_rate_monotone ⟨1000000, some 60000, some 10000, 1/2, 10000, 100000, 1000000000⟩
      60000 10000 rfl rfl (by norm_num) (by norm_num) (by norm_num)).2
        (by norm_num) (by norm_num) (by norm_num)⟩

end Haven

namespace Haven

/-! ### C6: duplicate safety of the Assembler -/

lemma getD_default_of_le {α : Type} (l : List α) (i : ℕ) (d : α) (h : l.length ≤ i) :
    l.getD i d = d := by
  simp [List.getD, List.getElem?_eq_none h]

lemma bfSet_fst_false_iff (bf : ChunkBitfield) (j : ℕ) :
    (bfSet bf j).1 = false ↔ (BITFIELD_WORDS ≤ j / 64 ∨ bfGet bf j = true) := by
  rcases bfSet_cases bf j with ⟨hc1, he⟩ | ⟨hc1, hc2, he⟩ | ⟨hc1, hc2, he⟩
  · rw [he]
    simp [hc1]
  · rw [he]
    constructor
    · intro _
      refine Or.inr ?_
      rw [bfGet_eq, if_neg hc1]
      exact decide_eq_true hc2
    · intro _
      rfl
  · rw [he]
    constructor
    · intro hfalse
      exact absurd hfalse (by simp)
    · intro hor
      rcases hor with hor | hor
      · exact absurd hor hc1
      · rw [bfGet_eq, if_neg hc1] at hor
        exact absurd (of_decide_eq_true hor) hc2

lemma bfSet_sets_preserved (bf : ChunkBitfield) (i j : ℕ)
    (hlen : bf.bits.length = BITFIELD_WORDS)
    (h : (bfSet bf j).1 = false) : (bfSet (bfSet bf i).2 j).1 = false := by
  cases hf : (bfSet bf i).1
  · rw [bfSet_of_fst_false bf i hf]
    exact h
  · obtain ⟨_, _, _, hAll⟩ := bfSet_snd_true bf i hlen hf
    rw [bfSet_fst_false_iff] at h ⊢
    rcases h with h | h
    · exact Or.inl h
    · refine Or.inr ?_
      rw [hAll j, h]
      simp

lemma bfGet_set_self_true (bf : ChunkBitfield) (i : ℕ)
    (hlen : bf.bits.length = BITFIELD_WORDS)
    (h : (bfSet bf i).1 = true) : bfGet (bfSet bf i).2 i = true := by
  obtain ⟨_, _, _, hAll⟩ := bfSet_snd_true bf i hlen h
  rw [hAll i]
  simp

/-- Outcome of `asmFinishChunk` when the writer-side invariants hold. -/
lemma asmFinish_main (cfg : RecvConfig) (s s2 t : AsmState) (cidx : ℕ)
    (hcidx : cidx < cfg.chunkCount)
    (hl1 : s2.bitfields.length = cfg.chunkCount) (hl2 : s2.buffers.length = cfg.chunkCount)
    (hl3 : s2.completed.length = cfg.chunkCount)
    (hcompeq : s2.completed = s.completed)
    (hobf : ∀ c, c ≠ cidx → s2.bitfields.getD c none = s.bitfields.getD c none)
    (hobuf : ∀ c, c ≠ cidx → s2.buffers.getD c none = s.buffers.getD c none)
    (hInvS : AsmInv cfg s)
    (hfin : asmFinishChunk cidx s2 = some t) :
    AsmInv cfg t ∧ t.completed.getD cidx false = true ∧
      (∀ g : FastFrame, Delivered cfg s g → Delivered cfg t g) := by
  obtain ⟨hlbf, hlbuf, hlc, hper⟩ := hInvS
  cases hdata : s2.buffers.getD cidx none with
  | none =>
    unfold asmFinishChunk at hfin
    rw [hdata] at hfin
    exact absurd hfin (by simp)
  | some data =>
    have ht : t = { s2 with
        completed := s2.completed.set cidx true,
        completedCount := s2.completedCount + 1,
        buffers := s2.buffers.set cidx none,
        bitfields := s2.bitfields.set cidx none,
        assembledOut := s2.assembledOut ++ [(cidx, data)] } := by
      unfold asmFinishChunk at hfin
      rw [hdata] at hfin
      exact (Option.some_inj.mp hfin).symm
    subst ht
    have hcdone : (s2.completed.set cidx true).getD cidx false = true :=
      getD_set_self _ _ _ _ (by omega)
    refine ⟨⟨by simpa using hl1, by simpa using hl2, by simpa using hl3, ?_⟩, hcdone, ?_⟩
    · intro c hc hcf
      simp only at hcf ⊢
      by_cases heq : c = cidx
      · subst heq
        rw [hcdone] at hcf
        exact absurd hcf (by simp)
      · rw [getD_set_ne _ _ _ _ _ (fun he => heq he.symm)] at hcf
        rw [hcompeq] at hcf
        rw [getD_set_ne _ _ _ _ _ (fun he => heq he.symm),
            getD_set_ne _ _ _ _ _ (fun he => heq he.symm), hobf c heq, hobuf c heq]
        exact hper c hc hcf
    · intro g hg
      by_cases hgi : g.chunkIndex = cidx
      · rw [Delivered, hgi]
        exact Or.inr (Or.inl hcdone)
      · rcases hg with hg | hg | ⟨bf, hbf, hset⟩
        · exact Or.inl hg
        · refine Or.inr (Or.inl ?_)
          simp only
          rw [getD_set_ne _ _ _ _ _ (fun he => hgi he.symm), hcompeq]
          exact hg
        · refine Or.inr (Or.inr ⟨bf, ?_, hset⟩)
          simp only
          rw [getD_set_ne _ _ _ _ _ (fun he => hgi he.symm), hobf _ hgi]
          exact hbf

/-- Outcome of the non-completing paths when the chunk state at `cidx` ends
up as an incomplete bitfield `bf2` whose bit for `fidx` is set (or ignored). -/
lemma asmNoFinish_main (cfg : RecvConfig) (s s2 : AsmState) (cidx fidx : ℕ)
    (bf2 : ChunkBitfield)
    (hcidx : cidx < cfg.chunkCount)
    (hl1 : s2.bitfields.length = cfg.chunkCount) (hl2 : s2.buffers.length = cfg.chunkCount)
    (hl3 : s2.completed.length = cfg.chunkCount)
    (hcompeq : s2.completed = s.completed)
    (hobf : ∀ c, c ≠ cidx → s2.bitfields.getD c none = s.bitfields.getD c none)
    (hobuf : ∀ c, c ≠ cidx → s2.buffers.getD c none = s.buffers.getD c none)
    (hbf2 : s2.bitfields.getD cidx none = some bf2)
    (hbuf2 : (s2.buffers.getD cidx none).isSome = true)
    (hbf2c : bfIsComplete bf2 = false) (hbf2l : bf2.bits.length = BITFIELD_WORDS)
    (hset2 : (bfSet bf2 fidx).1 = false)
    (hpres : ∀ bf, s.bitfields.getD cidx none = some bf →
      ∀ j, (bfSet bf j).1 = false → (bfSet bf2 j).1 = false)
    (hInvS : AsmInv cfg s) :
    AsmInv cfg s2 ∧ Delivered cfg s2 ⟨cidx, fidx, 0, []⟩ ∧
      (∀ g : FastFrame, g.chunkIndex = cidx → g.frameIndex = fidx → Delivered cfg s2 g) ∧
      (∀ g : FastFrame, Delivered cfg s g → Delivered cfg s2 g) := by
  obtain ⟨hlbf, hlbuf, hlc, hper⟩ := hInvS
  have hInv2 : AsmInv cfg s2 := by
    refine ⟨hl1, hl2, hl3, ?_⟩
    intro c hc hcf
    by_cases hceq : c = cidx
    · subst hceq
      rw [hbf2]
      constructor
      · rw [hbuf2]
        rfl
      · intro bf hbf
        cases Option.some_inj.mp hbf
        exact ⟨hbf2c, hbf2l⟩
    · rw [hcompeq] at hcf
      rw [hobf c hceq, hobuf c hceq]
      exact hper c hc hcf
  refine ⟨hInv2, Or.inr (Or.inr ⟨bf2, hbf2, hset2⟩), ?_, ?_⟩
  · intro g hgi hgf
    refine Or.inr (Or.inr ⟨bf2, ?_, ?_⟩)
    · rw [hgi]
      exact hbf2
    · rw [hgf]
      exact hset2
  · intro g hg
    rcases hg with hg | hg | ⟨bf, hbf, hset⟩
    · exact Or.inl hg
    · refine Or.inr (Or.inl ?_)
      rw [hcompeq]
      exact hg
    · by_cases hgi : g.chunkIndex = cidx
      · refine Or.inr (Or.inr ⟨bf2, by rw [hgi]; exact hbf2, ?_⟩)
        rw [hgi] at hbf
        exact hpres bf hbf g.frameIndex hset
      · exact Or.inr (Or.inr ⟨bf, by rw [hobf _ hgi]; exact hbf, hset⟩)

end Haven

namespace Haven

/-- Behaviour of the main Assembler path, given the post-initialisation
chunk state `s1` with bitfield `bf0` and buffer `buf0` at the frame's chunk. -/
lemma asmStep_core (cfg : RecvConfig) (s s1 : AsmState) (f : FastFrame) (t : AsmState)
    (bf0 : ChunkBitfield) (buf0 : List ℕ)
    (h1 : ¬ cfg.chunkCount ≤ f.chunkIndex)
    (h2 : ¬ s.completed.getD f.chunkIndex false = true)
    (hs1 : asmEnsureInit cfg s f = s1)
    (hl1 : s1.bitfields.length = cfg.chunkCount) (hl2 : s1.buffers.length = cfg.chunkCount)
    (hl3 : s1.completed.length = cfg.chunkCount)
    (hcompeq : s1.completed = s.completed)
    (hobf : ∀ c, c ≠ f.chunkIndex → s1.bitfields.getD c none = s.bitfields.getD c none)
    (hobuf : ∀ c, c ≠ f.chunkIndex → s1.buffers.getD c none = s.buffers.getD c none)
    (hbf1 : s1.bitfields.getD f.chunkIndex none = some bf0)
    (hbuf1 : s1.buffers.getD f.chunkIndex none = some buf0)
    (hb0len : bf0.bits.length = BITFIELD_WORDS)
    (hpres0 : ∀ bf, s.bitfields.getD f.chunkIndex none = some bf → bf = bf0)
    (hInvS : AsmInv cfg s)
    (hstep : asmStep cfg s f = some t) :
    AsmInv cfg t ∧ Delivered cfg t f ∧
      (∀ g, Delivered cfg s g → Delivered cfg t g) := by
  have hcidx : f.chunkIndex < cfg.chunkCount := by omega
  have hunfold : asmStep cfg s f =
      ((if (bfSet bf0 f.frameIndex).1 then
          asmCopy s1 f.chunkIndex f.frameIndex f.payload (bfSet bf0 f.frameIndex).2 buf0
        else some s1).bind (fun s2 =>
          if bfIsComplete (bfSet bf0 f.frameIndex).2 then asmFinishChunk f.chunkIndex s2
          else some s2)) := by
    simp only [asmStep]
    rw [if_neg h1, if_neg h2, hs1]
    simp only [hbf1, hbuf1]
  rw [hunfold] at hstep
  cases hr : (bfSet bf0 f.frameIndex).1 with
  | false =>
    rw [hr] at hstep
    simp only [Bool.false_eq_true, if_false, Option.some_bind] at hstep
    have hr2 : (bfSet bf0 f.frameIndex).2 = bf0 := bfSet_of_fst_false _ _ hr
    rw [hr2] at hstep
    cases hcomp : bfIsComplete bf0 with
    | false =>
      rw [hcomp] at hstep
      simp only [Bool.false_eq_true, if_false, Option.some_inj] at hstep
      subst hstep
      obtain ⟨hi, _, hdel, hmono⟩ := asmNoFinish_main cfg s s1 f.chunkIndex f.frameIndex bf0
        hcidx hl1 hl2 hl3 hcompeq hobf hobuf hbf1 (by rw [hbuf1]; rfl) hcomp hb0len hr
        (fun bf hbf j hj => by rw [hpres0 bf hbf] at hj; exact hj) hInvS
      exact ⟨hi, hdel f rfl rfl, hmono⟩
    | true =>
      rw [hcomp] at hstep
      simp only [if_true] at hstep
      obtain ⟨hi, hdone, hmono⟩ := asmFinish_main cfg s s1 t f.chunkIndex hcidx hl1 hl2 hl3
        hcompeq hobf hobuf hInvS hstep
      exact ⟨hi, Or.inr (Or.inl hdone), hmono⟩
  | true =>
    rw [hr] at hstep
    rw [if_pos rfl] at hstep
    simp only [asmCopy] at hstep
    by_cases hoff : min (f.frameIndex * FRAME_PAYLOAD + f.payload.length) buf0.length <
        f.frameIndex * FRAME_PAYLOAD
    · rw [if_pos hoff] at hstep
      exact absurd hstep (by simp)
    · rw [if_neg hoff] at hstep
      simp only [Option.some_bind] at hstep
      obtain ⟨hrc, hffc, hrlen, hAll⟩ := bfSet_snd_true bf0 f.frameIndex hb0len hr
      have hs2l1 : (s1.bitfields.set f.chunkIndex (some (bfSet bf0 f.frameIndex).2)).length =
          cfg.chunkCount := by rw [List.length_set]; exact hl1
      have hs2l2 : (s1.buffers.set f.chunkIndex
          (some (writeBytes buf0 (f.frameIndex * FRAME_PAYLOAD)
            (f.payload.take (min (f.frameIndex * FRAME_PAYLOAD + f.payload.length) buf0.length -
              f.frameIndex * FRAME_PAYLOAD))))).length = cfg.chunkCount := by
        rw [List.length_set]; exact hl2
      have hs2bf : (s1.bitfields.set f.chunkIndex (some (bfSet bf0 f.frameIndex).2)).getD
          f.chunkIndex none = some (bfSet bf0 f.frameIndex).2 :=
        getD_set_self _ _ _ _ (by omega)
      have hs2buf : ((s1.buffers.set f.chunkIndex
          (some (writeBytes buf0 (f.frameIndex * FRAME_PAYLOAD)
            (f.payload.take (min (f.frameIndex * FRAME_PAYLOAD + f.payload.length) buf0.length -
              f.frameIndex * FRAME_PAYLOAD))))).getD f.chunkIndex none).isSome = true := by
        rw [getD_set_self _ _ _ _ (by omega)]
        rfl
      have hs2obf : ∀ c, c ≠ f.chunkIndex →
          (s1.bitfields.set f.chunkIndex (some (bfSet bf0 f.frameIndex).2)).getD c none =
            s.bitfields.getD c none := by
        intro c hc
        rw [getD_set_ne _ _ _ _ _ (fun he => hc he.symm)]
        exact hobf c hc
      have hs2obuf : ∀ c, c ≠ f.chunkIndex →
          (s1.buffers.set f.chunkIndex
            (some (writeBytes buf0 (f.frameIndex * FRAME_PAYLOAD)
              (f.payload.take (min (f.frameIndex * FRAME_PAYLOAD + f.payload.length) buf0.length -
                f.frameIndex * FRAME_PAYLOAD))))).getD c none = s.buffers.getD c none := by
        intro c hc
        rw [getD_set_ne _ _ _ _ _ (fun he => hc he.symm)]
        exact hobuf c hc
      have hset2 : (bfSet (bfSet bf0 f.frameIndex).2 f.frameIndex).1 = false :=
        (bfSet_fst_false_iff _ _).mpr
          (Or.inr (bfGet_set_self_true bf0 f.frameIndex hb0len hr))
      have hpres2 : ∀ bf, s.bitfields.getD f.chunkIndex none = some bf →
          ∀ j, (bfSet bf j).1 = false → (bfSet (bfSet bf0 f.frameIndex).2 j).1 = false := by
        intro bf hbf j hj
        rw [hpres0 bf hbf] at hj
        exact bfSet_sets_preserved bf0 f.frameIndex j hb0len hj
      cases hcomp : bfIsComplete (bfSet bf0 f.frameIndex).2 with
      | false =>
        rw [hcomp] at hstep
        simp only [Bool.false_eq_true, if_false, Option.some_inj] at hstep
        have ht : t = { s1 with
            bitfields := s1.bitfields.set f.chunkIndex (some (bfSet bf0 f.frameIndex).2),
            buffers := s1.buffers.set f.chunkIndex
              (some (writeBytes buf0 (f.frameIndex * FRAME_PAYLOAD)
                (f.payload.take (min (f.frameIndex * FRAME_PAYLOAD + f.payload.length) buf0.length -
                  f.frameIndex * FRAME_PAYLOAD)))) } := hstep.symm
        subst ht
        obtain ⟨hi, _, hdel, hmono⟩ := asmNoFinish_main cfg s
          { s1 with
            bitfields := s1.bitfields.set f.chunkIndex (some (bfSet bf0 f.frameIndex).2),
            buffers := s1.buffers.set f.chunkIndex
              (some (writeBytes buf0 (f.frameIndex * FRAME_PAYLOAD)
                (f.payload.take (min (f.frameIndex * FRAME_PAYLOAD + f.payload.length) buf0.length -
                  f.frameIndex * FRAME_PAYLOAD)))) }
          f.chunkIndex f.frameIndex (bfSet bf0 f.frameIndex).2 hcidx hs2l1 hs2l2
          (by simpa using hl3) (by simpa using hcompeq) hs2obf hs2obuf hs2bf hs2buf
          hcomp hrlen hset2 hpres2 hInvS
        exact ⟨hi, hdel f rfl rfl, hmono⟩
      | true =>
        rw [hcomp] at hstep
        simp only [if_true] at hstep
        obtain ⟨hi, hdone, hmono⟩ := asmFinish_main cfg s
          { s1 with
            bitfields := s1.bitfields.set f.chunkIndex (some (bfSet bf0 f.frameIndex).2),
            buffers := s1.buffers.set f.chunkIndex
              (some (writeBytes buf0 (f.frameIndex * FRAME_PAYLOAD)
                (f.payload.take (min (f.frameIndex * FRAME_PAYLOAD + f.payload.length) buf0.length -
                  f.frameIndex * FRAME_PAYLOAD)))) }
          t f.chunkIndex hcidx hs2l1 hs2l2
          (by simpa using hl3) (by simpa using hcompeq) hs2obf hs2obuf hInvS hstep
        exact ⟨hi, Or.inr (Or.inl hdone), hmono⟩

/-- Every successful Assembler step preserves the invariant, absorbs the
frame it processed, and preserves absorption of previously absorbed frames. -/
lemma asmStep_main (cfg : RecvConfig) (s : AsmState) (f : FastFrame) (t : AsmState)
    (hInv : AsmInv cfg s) (hstep : asmStep cfg s f = some t) :
    AsmInv cfg t ∧ Delivered cfg t f ∧
      (∀ g, Delivered cfg s g → Delivered cfg t g) := by
  by_cases h1 : cfg.chunkCount ≤ f.chunkIndex
  · have ht : t = s := by
      unfold asmStep at hstep
      rw [if_pos h1] at hstep
      exact (Option.some_inj.mp hstep).symm
    subst ht
    exact ⟨hInv, Or.inl h1, fun g hg => hg⟩
  · by_cases h2 : s.completed.getD f.chunkIndex false = true
    · have ht : t = s := by
        unfold asmStep at hstep
        rw [if_neg h1, if_pos h2] at hstep
        exact (Option.some_inj.mp hstep).symm
      subst ht
      exact ⟨hInv, Or.inr (Or.inl h2), fun g hg => hg⟩
    · obtain ⟨hlbf, hlbuf, hlc, hper⟩ := hInv
      have hcidx : f.chunkIndex < cfg.chunkCount := by omega
      have h2f : s.completed.getD f.chunkIndex false = false := by
        cases hcv : s.completed.getD f.chunkIndex false
        · rfl
        · exact absurd hcv h2
      cases hinit : s.bitfields.getD f.chunkIndex none with
      | none =>
        have hs1 : asmEnsureInit cfg s f =
            { s with bitfields := s.bitfields.set f.chunkIndex (some (bfNew f.frameCount)),
                     buffers := s.buffers.set f.chunkIndex
                       (some (List.replicate (thisChunkSize cfg f.chunkIndex) 0)) } := by
          unfold asmEnsureInit
          rw [hinit]
          simp
        refine asmStep_core cfg s _ f t (bfNew f.frameCount)
          (List.replicate (thisChunkSize cfg f.chunkIndex) 0) h1 h2 hs1 ?_ ?_ ?_ rfl ?_ ?_ ?_ ?_
          (by simp [bfNew]) ?_ ⟨hlbf, hlbuf, hlc, hper⟩ hstep
        · simpa using hlbf
        · simpa using hlbuf
        · simpa using hlc
        · intro c hc
          exact getD_set_ne _ _ _ _ _ (fun he => hc he.symm)
        · intro c hc
          exact getD_set_ne _ _ _ _ _ (fun he => hc he.symm)
        · exact getD_set_self _ _ _ _ (by omega)
        · exact getD_set_self _ _ _ _ (by omega)
        · intro bf hbf
          rw [hinit] at hbf
          exact absurd hbf (by simp)
      | some bf0 =>
        have hs1 : asmEnsureInit cfg s f = s := by
          unfold asmEnsureInit
          rw [hinit]
          simp
        obtain ⟨hsame, hprop⟩ := hper f.chunkIndex hcidx h2f
        have hbufS : (s.buffers.getD f.chunkIndex none).isSome = true := by
          rw [← hsame, hinit]
          rfl
        obtain ⟨buf0, hbuf0⟩ := Option.isSome_iff_exists.mp hbufS
        obtain ⟨hbfc, hbfl⟩ := hprop bf0 hinit
        refine asmStep_core cfg s s f t bf0 buf0 h1 h2 hs1 hlbf hlbuf hlc rfl
          (fun _ _ => rfl) (fun _ _ => rfl) hinit hbuf0 hbfl ?_
          ⟨hlbf, hlbuf, hlc, hper⟩ hstep
        intro bf hbf
        rw [hinit] at hbf
        exact (Option.some_inj.mp hbf).symm

end Haven

namespace Haven

/-- Delivering an already-absorbed frame is a no-op. -/
lemma delivered_noop (cfg : RecvConfig) (s : AsmState) (f : FastFrame)
    (hInv : AsmInv cfg s) (hDel : Delivered cfg s f) : asmStep cfg s f = some s := by
  obtain ⟨hlbf, hlbuf, hlc, hper⟩ := hInv
  by_cases h1 : cfg.chunkCount ≤ f.chunkIndex
  · unfold asmStep
    rw [if_pos h1]
  · by_cases h2 : s.completed.getD f.chunkIndex false = true
    · unfold asmStep
      rw [if_neg h1, if_pos h2]
    · rcases hDel with hd | hd | ⟨bf, hbf, hset⟩
      · exact absurd hd h1
      · exact absurd hd h2
      · have hcidx : f.chunkIndex < cfg.chunkCount := by omega
        have h2f : s.completed.getD f.chunkIndex false = false := by
          cases hcv : s.completed.getD f.chunkIndex false
          · rfl
          · exact absurd hcv h2
        have hs1 : asmEnsureInit cfg s f = s := by
          unfold asmEnsureInit
          rw [hbf]
          simp
        obtain ⟨hsame, hprop⟩ := hper f.chunkIndex hcidx h2f
        have hbufS : (s.buffers.getD f.chunkIndex none).isSome = true := by
          rw [← hsame, hbf]
          rfl
        obtain ⟨buf, hbuf⟩ := Option.isSome_iff_exists.mp hbufS
        obtain ⟨hbfc, _⟩ := hprop bf hbf
        have hr2 : (bfSet bf f.frameIndex).2 = bf := bfSet_of_fst_false _ _ hset
        simp only [asmStep]
        rw [if_neg h1, if_neg h2, hs1]
        simp only [hbf, hbuf, hset, Bool.false_eq_true, if_false, Option.some_bind, hr2, hbfc]

/-- The initial Assembler state satisfies the invariant. -/
lemma asmInit_inv (cfg : RecvConfig) : AsmInv cfg (asmInit cfg) := by
  refine ⟨by simp [asmInit], by simp [asmInit], by simp [asmInit], ?_⟩
  intro c hc _
  have hbf : (asmInit cfg).bitfields.getD c none = none := getD_replicate_lt _ _ _ _ hc
  have hbuf : (asmInit cfg).buffers.getD c none = none := getD_replicate_lt _ _ _ _ hc
  rw [hbf, hbuf]
  exact ⟨rfl, fun bf hbf2 => absurd hbf2 (by simp)⟩

/-- Claim C6: delivering a frame a second (or any further) time — after any
interleaving of other frames that does not itself panic — leaves the
Assembler state (buffers, bitfields, completion flags, counters and the
assembled-chunk channel) exactly unchanged. -/
theorem c6_duplicate_safety (cfg : RecvConfig) (s : AsmState) (f : FastFrame)
    (l : List FastFrame) (hInv : AsmInv cfg s) :
    ((asmStep cfg s f).bind (fun s1 => l.foldlM (asmStep cfg) s1)).bind
        (fun s2 => asmStep cfg s2 f) =
      (asmStep cfg s f).bind (fun s1 => l.foldlM (asmStep cfg) s1) := by
  cases hstep : asmStep cfg s f with
  | none => rfl
  | some s1 =>
    obtain ⟨hInv1, hDel1, hmono0⟩ := asmStep_main cfg s f s1 hInv hstep
    simp only [Option.some_bind]
    clear hmono0 hstep hInv
    induction l generalizing s1 with
    | nil =>
      simpa using delivered_noop cfg s1 f hInv1 hDel1
    | cons a tl ih =>
      simp only [List.foldlM_cons]
      cases hstepa : asmStep cfg s1 a with
      | none => rfl
      | some v =>
        obtain ⟨hv, _, hmono⟩ := asmStep_main cfg s1 a v hInv1 hstepa
        simp only [Option.bind_eq_bind, Option.some_bind]
        exact ih v hv (hmono f hDel1)

/-- Witness for `c6_duplicate_safety`: a two-frame chunk receives frame 0,
then frame 1, then frame 0 again; the redelivery changes nothing. -/
theorem c6_duplicate_safety_witness :
    ((asmStep ⟨2800, 1, 2800, []⟩ (asmInit ⟨2800, 1, 2800, []⟩) ⟨0, 0, 2, [9]⟩).bind
        (fun s1 => [(⟨0, 1, 2, [8]⟩ : FastFrame)].foldlM (asmStep ⟨2800, 1, 2800, []⟩) s1)).bind
        (fun s2 => asmStep ⟨2800, 1, 2800, []⟩ s2 ⟨0, 0, 2, [9]⟩) =
      (asmStep ⟨2800, 1, 2800, []⟩ (asmInit ⟨2800, 1, 2800, []⟩) ⟨0, 0, 2, [9]⟩).bind
        (fun s1 => [(⟨0, 1, 2, [8]⟩ : FastFrame)].foldlM (asmStep ⟨2800, 1, 2800, []⟩) s1) :=
  c6_duplicate_safety ⟨2800, 1, 2800, []⟩ (asmInit ⟨2800, 1, 2800, []⟩) ⟨0, 0, 2, [9]⟩
    [⟨0, 1, 2, [8]⟩] (asmInit_inv ⟨2800, 1, 2800, []⟩)

end Haven

namespace Haven

/-! ### C3: receiver state machine -/

/-- Claim C3 (counterexample): in a one-chunk transfer, the Assembler
assembles chunk 0 and then — before the Writer has verified or written
anything — observes `completed_count == chunk_count` and stores
STATE_COMPLETE.  The reachable state has the COMPLETE word with zero chunks
written, so Complete is not reached only after all chunks are written, and
the Writer is not the only stage that sets it. -/
theorem c3_counterexample :
    (sysRun ⟨2, 1, 4194332, []⟩ [.frame ⟨0, 0, 1, [7, 7]⟩, .asmFinish]).map
        (fun s => (s.stateWord, s.chunksWritten)) = some (STATE_COMPLETE, 0) ∧
      (⟨2, 1, 4194332, []⟩ : RecvConfig).chunkCount = 1 := by
  decide

/-- Claim C3 (amended): the state word becomes COMPLETE only through the
Assembler once all chunks are assembled, or through the Writer once
`chunks_written` reaches `chunk_count`; `run_receiver` itself never stores
STATE_ERROR — on a per-chunk hash mismatch the Writer stops with an error,
leaving the state word unchanged. -/
theorem c3_state_word (cfg : RecvConfig) (s s2 : SysState) (ev : RecvEvent)
    (hstep : sysStep cfg s ev = some s2) :
    (s2.stateWord = STATE_COMPLETE →
      s.stateWord = STATE_COMPLETE ∨
      (ev = .asmFinish ∧ cfg.chunkCount ≤ s.asm.completedCount) ∨
      (ev = .writeChunk ∧ cfg.chunkCount ≤ s2.chunksWritten)) ∧
    (s.stateWord ≠ STATE_ERROR → s2.stateWord ≠ STATE_ERROR) ∧
    (∀ cidx data, ev = .writeChunk → s.writerErr = false →
      (s.asm.assembledOut.drop s.consumed).head? = some (cidx, data) →
      hashOk cfg cidx data = false →
      s2.writerErr = true ∧ s2.stateWord = s.stateWord ∧ s2.chunksWritten = s.chunksWritten) := by
  cases ev with
  | frame f =>
    cases hasm : asmStep cfg s.asm f with
    | none =>
      simp only [sysStep] at hstep
      rw [hasm] at hstep
      exact absurd hstep (by simp)
    | some a =>
      have hs2 : s2 = { s with asm := a } := by
        simp only [sysStep] at hstep
        rw [hasm] at hstep
        exact (Option.some_inj.mp hstep).symm
      subst hs2
      refine ⟨fun hw => Or.inl hw, fun he => he, ?_⟩
      intro cidx data hev
      exact absurd hev (by simp)
  | asmFinish =>
    by_cases hc : cfg.chunkCount ≤ s.asm.completedCount
    · have hs2 : s2 = { s with stateWord := STATE_COMPLETE } := by
        simp only [sysStep] at hstep
        rw [if_pos hc] at hstep
        exact (Option.some_inj.mp hstep).symm
      subst hs2
      refine ⟨fun _ => Or.inr (Or.inl ⟨rfl, hc⟩),
        fun _ => by show STATE_COMPLETE ≠ STATE_ERROR; decide, ?_⟩
      intro cidx data hev
      exact absurd hev (by simp)
    · simp only [sysStep] at hstep
      rw [if_neg hc] at hstep
      exact absurd hstep (by simp)
  | writeChunk =>
    by_cases herr : s.writerErr = true
    · simp only [sysStep] at hstep
      rw [if_pos herr] at hstep
      exact absurd hstep (by simp)
    · have herrf : s.writerErr = false := by
        cases hb : s.writerErr
        · rfl
        · exact absurd hb herr
      cases hhead : (s.asm.assembledOut.drop s.consumed).head? with
      | none =>
        simp only [sysStep] at hstep
        rw [if_neg herr, hhead] at hstep
        exact absurd hstep (by simp)
      | some p =>
        obtain ⟨cidx0, data0⟩ := p
        cases hok : hashOk cfg cidx0 data0 with
        | true =>
          have hs2 : s2 = { s with
              consumed := s.consumed + 1,
              chunksWritten := s.chunksWritten + 1,
              stateWord := (if cfg.chunkCount ≤ s.chunksWritten + 1 then STATE_COMPLETE
                            else s.stateWord) } := by
            simp only [sysStep, hhead] at hstep
            rw [if_neg herr, if_pos hok] at hstep
            exact (Option.some_inj.mp hstep).symm
          subst hs2
          refine ⟨?_, ?_, ?_⟩
          · intro hw
            simp only at hw
            by_cases hcnt : cfg.chunkCount ≤ s.chunksWritten + 1
            · exact Or.inr (Or.inr ⟨rfl, hcnt⟩)
            · rw [if_neg hcnt] at hw
              exact Or.inl hw
          · intro he
            simp only
            by_cases hcnt : cfg.chunkCount ≤ s.chunksWritten + 1
            · rw [if_pos hcnt]
              decide
            · rw [if_neg hcnt]
              exact he
          · intro cidx data _ _ hhead2 hbad
            simp only [Option.some_inj, Prod.mk.injEq] at hhead2
            obtain ⟨rfl, rfl⟩ := hhead2
            rw [hok] at hbad
            exact absurd hbad (by simp)
        | false =>
          have hs2 : s2 = { s with writerErr := true } := by
            simp only [sysStep, hhead] at hstep
            rw [if_neg herr, if_neg (by rw [hok]; simp : ¬ hashOk cfg cidx0 data0 = true)]
              at hstep
            exact (Option.some_inj.mp hstep).symm
          subst hs2
          refine ⟨fun hw => Or.inl hw, fun he => he, ?_⟩
          intro cidx data _ _ hhead2 _
          exact ⟨rfl, rfl, rfl⟩

/-- Witness for `c3_state_word`: the Writer meets an assembled chunk whose
digest differs from the declared one; it flags the error and leaves the
state word and the written counter untouched. -/
theorem c3_state_word_witness :
    (⟨⟨[none], [none], [true], 1, [(0, [0])]⟩, 0, 0, true, STATE_RECEIVING⟩ : SysState).writerErr
        = true ∧
      (⟨⟨[none], [none], [true], 1, [(0, [0])]⟩, 0, 0, true, STATE_RECEIVING⟩
          : SysState).stateWord =
        (⟨⟨[none], [none], [true], 1, [(0, [0])]⟩, 0, 0, false, STATE_RECEIVING⟩
          : SysState).stateWord ∧
      (⟨⟨[none], [none], [true], 1, [(0, [0])]⟩, 0, 0, true, STATE_RECEIVING⟩
          : SysState).chunksWritten =
        (⟨⟨[none], [none], [true], 1, [(0, [0])]⟩, 0, 0, false, STATE_RECEIVING⟩
          : SysState).chunksWritten :=
  (c3_state_word ⟨1, 1, 1, [List.replicate 32 0]⟩
      ⟨⟨[none], [none], [true], 1, [(0, [0])]⟩, 0, 0, false, STATE_RECEIVING⟩
      ⟨⟨[none], [none], [true], 1, [(0, [0])]⟩, 0, 0, true, STATE_RECEIVING⟩
      .writeChunk (by decide)).2.2 0 [0] rfl rfl (by decide) (by decide)

end Haven
